import Mathlib

/-!
# Verification of the PR review bot's core (`src/review_processor.py`)

Shallow embedding of the chunker, remote invoker, output parser and review
orchestrator of `review_processor.py`.  Text is modelled as `List Char`
(Python `str`, restricted to the characters the program manipulates), machine
integers do not occur, and every network effect is made explicit: the
transport is a schedule of outcomes per call, the model endpoint an oracle
from call index to response.
-/

namespace ReviewBot

/-- The characters Python's `str.strip()` removes (ASCII whitespace:
space, tab, newline, carriage return, vertical tab, form feed). -/
def isPySpace (c : Char) : Bool :=
  c = ' ' || c = '\t' || c = '\n' || c = '\r' || c = Char.ofNat 11 || c = Char.ofNat 12

/-- Python `str.strip()`: drop leading and trailing whitespace. -/
def strip (s : List Char) : List Char :=
  ((s.dropWhile isPySpace).reverse.dropWhile isPySpace).reverse

/-- `MAX_DIFF_LENGTH = 100000` of `review_processor.py`. -/
def MAX_DIFF_LENGTH : Nat := 100000

/-- `CHUNK_SIZE = 5000` of `review_processor.py`. -/
def CHUNK_SIZE : Nat := 5000

/-- Python `diff.split('\n')`: split at every newline, keeping empty parts,
so a string with n newlines yields n+1 parts and `"".split('\n') == ['']`. -/
def splitLines : List Char → List (List Char)
  | [] => [[]]
  | c :: cs =>
    if c = '\n' then [] :: splitLines cs
    else
      match splitLines cs with
      | [] => [[c]]
      | l :: ls => (c :: l) :: ls

/-- The accumulation loop of `split_diff` (lines 31-39): for each line, if
`len(current_chunk) + len(line) + 1 > CHUNK_SIZE` close the current chunk
(even when it is empty) and start a new one; then append `line + '\n'` to the
current chunk; after the loop, emit the current chunk when non-empty. -/
def chunkLines : List Char → List (List Char) → List (List Char)
  | current, [] => if current = [] then [] else [current]
  | current, line :: rest =>
    if current.length + line.length + 1 > CHUNK_SIZE then
      current :: chunkLines (line ++ ['\n']) rest
    else
      chunkLines (current ++ (line ++ ['\n'])) rest

/-- `ReviewProcessor.split_diff` (lines 26-40): a diff of length at most
`MAX_DIFF_LENGTH` is returned whole as a single chunk; a longer diff is split
on newlines and its lines accumulated by `chunkLines`. -/
def split_diff (diff : List Char) : List (List Char) :=
  if diff.length ≤ MAX_DIFF_LENGTH then [diff]
  else chunkLines [] (splitLines diff)

theorem splitLines_ne_nil (s : List Char) : splitLines s ≠ [] := by
  cases s with
  | nil => simp [splitLines]
  | cons c cs =>
    simp only [splitLines]
    split
    · simp
    · split <;> simp

/-- Joining the lines of `splitLines` with a newline appended to each
reproduces the input plus one extra trailing newline. -/
theorem splitLines_flatten (s : List Char) :
    ((splitLines s).map (fun l => l ++ ['\n'])).flatten = s ++ ['\n'] := by
  induction s with
  | nil => simp [splitLines]
  | cons c cs ih =>
    by_cases hc : c = '\n'
    · subst hc
      simp only [splitLines, if_pos rfl, List.map_cons, List.flatten_cons]
      simpa using ih
    · cases hsp : splitLines cs with
      | nil => exact absurd hsp (splitLines_ne_nil cs)
      | cons l ls =>
        rw [hsp] at ih
        simp only [splitLines, if_neg hc, hsp, List.map_cons, List.flatten_cons] at ih ⊢
        have h2 := congrArg (fun t => c :: t) ih
        simpa using h2

/-- The chunks produced by `chunkLines` concatenate to the current buffer
followed by every line with a newline appended. -/
theorem chunkLines_flatten (lines : List (List Char)) :
    ∀ current : List Char,
      (chunkLines current lines).flatten =
        current ++ (lines.map (fun l => l ++ ['\n'])).flatten := by
  induction lines with
  | nil =>
    intro current
    by_cases h : current = [] <;> simp [chunkLines, h]
  | cons line rest ih =>
    intro current
    simp only [chunkLines]
    split
    · simp [ih, List.append_assoc]
    · simp [ih, List.append_assoc]

/-- Above the length threshold, concatenating the chunks of `split_diff`
yields the diff plus one extra trailing newline. -/
theorem split_diff_flatten_long (diff : List Char)
    (h : MAX_DIFF_LENGTH < diff.length) :
    (split_diff diff).flatten = diff ++ ['\n'] := by
  rw [split_diff, if_neg (by omega), chunkLines_flatten, splitLines_flatten]
  simp

/-- The diff used to exhibit the chunker's behaviour above the threshold:
a single line of `MAX_DIFF_LENGTH + 1` copies of `'a'`. -/
def bigDiff : List Char := List.replicate (MAX_DIFF_LENGTH + 1) 'a'

theorem bigDiff_length : bigDiff.length = MAX_DIFF_LENGTH + 1 := by
  simp [bigDiff]

theorem bigDiff_no_newline : '\n' ∉ bigDiff := by
  intro hmem
  rw [bigDiff, List.mem_replicate] at hmem
  exact absurd hmem.2 (by decide)

/-- C1 (amended): joining the chunks reproduces the diff exactly when the
diff is within the length threshold, and reproduces the diff followed by one
extra trailing newline when it exceeds the threshold. -/
theorem split_diff_flatten (diff : List Char) :
    (split_diff diff).flatten =
      if diff.length ≤ MAX_DIFF_LENGTH then diff else diff ++ ['\n'] := by
  by_cases h : diff.length ≤ MAX_DIFF_LENGTH
  · simp [split_diff, h]
  · rw [if_neg h, split_diff_flatten_long diff (by omega)]

theorem append_singleton_ne (l : List Char) (c : Char) : l ++ [c] ≠ l := by
  intro hEq
  have hL := congrArg List.length hEq
  simp only [List.length_append, List.length_singleton] at hL
  omega

/-- C1 counterexample: for a diff of 100001 characters, the concatenation of
the chunks of `split_diff` is not the original diff (an extra newline was
appended). -/
theorem split_diff_concat_cex : (split_diff bigDiff).flatten ≠ bigDiff := by
  have hlong : MAX_DIFF_LENGTH < bigDiff.length := by
    rw [bigDiff_length]; omega
  rw [split_diff_flatten_long bigDiff hlong]
  exact append_singleton_ne bigDiff '\n'

/-- Every chunk `chunkLines` emits from a non-empty buffer is non-empty:
the buffer handed to every recursive call ends in the restored newline. -/
theorem chunkLines_ne_nil_mem (lines : List (List Char)) :
    ∀ current : List Char, current ≠ [] → ∀ c ∈ chunkLines current lines, c ≠ [] := by
  induction lines with
  | nil =>
    intro current hcur c hc
    rw [chunkLines, if_neg hcur] at hc
    rw [List.mem_singleton] at hc
    subst hc
    exact hcur
  | cons line rest ih =>
    intro current hcur c hc
    simp only [chunkLines] at hc
    split at hc
    · rcases List.mem_cons.mp hc with h | h
      · subst h; exact hcur
      · exact ih (line ++ ['\n']) (by simp) c h
    · exact ih (current ++ (line ++ ['\n'])) (by simp) c hc

/-- A string without newlines splits into the single line that is itself. -/
theorem splitLines_no_newline (s : List Char) (h : '\n' ∉ s) :
    splitLines s = [s] := by
  induction s with
  | nil => rfl
  | cons c cs ih =>
    have hc : ¬ c = '\n' := fun e => h (e ▸ List.mem_cons_self c cs)
    have hcs : '\n' ∉ cs := fun m => h (List.mem_cons_of_mem _ m)
    rw [splitLines.eq_def]
    simp only [if_neg hc, ih hcs]

/-- `split_diff` below the threshold returns the diff as its only chunk. -/
theorem split_diff_eq_single (diff : List Char)
    (h : diff.length ≤ MAX_DIFF_LENGTH) : split_diff diff = [diff] := by
  rw [split_diff, if_pos h]

/-- C4 (amended): the empty diff yields exactly one chunk, the empty string;
every chunk other than the first is non-empty; and an empty chunk occurs
exactly when the diff exceeds the length threshold and its first line alone
trips the chunk-size check (the loop then closes the still-empty buffer as a
chunk). -/
theorem split_diff_empty_chunks (diff : List Char) :
    (diff = [] → split_diff diff = [[]]) ∧
    (∀ c ∈ (split_diff diff).tail, c ≠ []) ∧
    ([] ∈ split_diff diff ↔
      diff = [] ∨ (MAX_DIFF_LENGTH < diff.length ∧
        CHUNK_SIZE < (splitLines diff).headI.length + 1)) := by
  by_cases hshort : diff.length ≤ MAX_DIFF_LENGTH
  · rw [split_diff_eq_single diff hshort]
    refine ⟨fun h => by rw [h], ?_, ?_⟩
    · intro c hc
      simp at hc
    · constructor
      · intro hmem
        exact Or.inl (List.mem_singleton.mp hmem).symm
      · rintro (h | ⟨h1, h2⟩)
        · rw [h]
          exact List.mem_singleton.mpr rfl
        · exact absurd h1 (by omega)
  · have hlong : MAX_DIFF_LENGTH < diff.length := by omega
    have hdne : diff ≠ [] := by
      intro h
      rw [h] at hlong
      simp at hlong
    cases hsp : splitLines diff with
    | nil => exact absurd hsp (splitLines_ne_nil diff)
    | cons l ls =>
      have hsd : split_diff diff = chunkLines [] (l :: ls) := by
        rw [split_diff, if_neg hshort, hsp]
      by_cases hbig : List.length ([] : List Char) + l.length + 1 > CHUNK_SIZE
      · have hck : chunkLines [] (l :: ls) = [] :: chunkLines (l ++ ['\n']) ls := by
          simp only [chunkLines]
          rw [if_pos hbig]
        rw [hsd, hck]
        refine ⟨fun h => absurd h hdne, ?_, ?_⟩
        · intro c hc
          exact chunkLines_ne_nil_mem ls (l ++ ['\n']) (by simp) c hc
        · constructor
          · intro _
            refine Or.inr ⟨hlong, ?_⟩
            simpa using hbig
          · intro _
            exact List.mem_cons_self _ _
      · have hck : chunkLines [] (l :: ls) = chunkLines (l ++ ['\n']) ls := by
          simp only [chunkLines]
          rw [if_neg hbig]
          rfl
        rw [hsd, hck]
        have hne : ∀ c ∈ chunkLines (l ++ ['\n']) ls, c ≠ [] :=
          chunkLines_ne_nil_mem ls (l ++ ['\n']) (by simp)
        refine ⟨fun h => absurd h hdne, ?_, ?_⟩
        · intro c hc
          exact hne c (List.mem_of_mem_tail hc)
        · constructor
          · intro hmem
            exact absurd rfl (hne [] hmem)
          · rintro (h | ⟨h1, h2⟩)
            · exact absurd h hdne
            · simp only [List.headI_cons] at h2
              exact absurd h2 (by simpa using hbig)

/-- C4 counterexample: the 100001-character single-line diff is non-empty,
yet `split_diff` emits an empty chunk (its first chunk), since the oversized
first line makes the loop close the still-empty buffer. -/
theorem split_diff_empty_chunk_cex : bigDiff ≠ [] ∧ [] ∈ split_diff bigDiff := by
  have hlen := bigDiff_length
  constructor
  · intro h
    rw [h] at hlen
    simp [MAX_DIFF_LENGTH] at hlen
  · have hsp : splitLines bigDiff = [bigDiff] :=
      splitLines_no_newline bigDiff bigDiff_no_newline
    have hcond : List.length ([] : List Char) + bigDiff.length + 1 > CHUNK_SIZE := by
      rw [hlen]
      norm_num [CHUNK_SIZE, MAX_DIFF_LENGTH]
    rw [split_diff, if_neg (by rw [hlen]; omega), hsp]
    simp only [chunkLines]
    rw [if_pos hcond]
    exact List.mem_cons_self _ _

/-- C7: a diff whose length is at most `MAX_DIFF_LENGTH` is returned by
`split_diff` as exactly one chunk equal to the diff unchanged. -/
theorem split_diff_short (diff : List Char)
    (h : diff.length ≤ MAX_DIFF_LENGTH) : split_diff diff = [diff] :=
  split_diff_eq_single diff h

/-- C7 witness: the short-circuit evaluated on a concrete two-character diff. -/
theorem split_diff_short_witness :
    ("+x".data.length ≤ MAX_DIFF_LENGTH) ∧ split_diff "+x".data = ["+x".data] :=
  ⟨by decide, split_diff_short "+x".data (by decide)⟩

/-- Split a string at its first colon: `some (before, after)` with
`line = before ++ ':' :: after` and `before` colon-free, `none` when there is
no colon.  Backbone of the regex fragment `([^:]+):` (a negated character
class also matches a newline, so `before` may contain one). -/
def splitAtColon : List Char → Option (List Char × List Char)
  | [] => none
  | c :: cs =>
    if c = ':' then some ([], cs)
    else
      match splitAtColon cs with
      | none => none
      | some (a, b) => some (c :: a, b)

/-- `re.match(r"([^:]+):(\d+):(.+)", line)` as the three captured groups: a
non-empty colon-free file part, one or more digits immediately after the
first colon (no surrounding whitespace), then a colon and a non-empty run of
non-newline characters (`.` does not match a newline; `re.match` anchors only
at the start, so the third group is the maximal such run).  Digits are ASCII,
as in the inputs the program handles. -/
def matchFileLineRest (line : List Char) :
    Option (List Char × List Char × List Char) :=
  match splitAtColon line with
  | none => none
  | some (file, rest) =>
    if file = [] then none
    else
      match rest.dropWhile Char.isDigit with
      | [] => none
      | c0 :: rest2 =>
        if c0 = ':' then
          if rest.takeWhile Char.isDigit = [] then none
          else if rest2.takeWhile (fun c => c != '\n') = [] then none
          else some (file, rest.takeWhile Char.isDigit,
            rest2.takeWhile (fun c => c != '\n'))
        else none

/-- `re.match(r"SECURITY:([^:]+):(\d+):(.+)", line)` (line 65): the literal
prefix `SECURITY:` followed by the same three groups. -/
def security_match (line : List Char) :
    Option (List Char × List Char × List Char) :=
  if ("SECURITY:".data).isPrefixOf line then matchFileLineRest (line.drop 9)
  else none

/-- `re.match(r"([^:]+):(\d+):(.+)", line)` (line 66). -/
def comment_match (line : List Char) :
    Option (List Char × List Char × List Char) :=
  matchFileLineRest line

/-- A structured review comment `{"file": ..., "line": ..., "comment": ...}`. -/
structure Comment where
  file : List Char
  line : Nat
  comment : List Char
  deriving DecidableEq

/-- A structured security issue `{"file": ..., "line": ..., "issue": ...}`. -/
structure SecurityIssue where
  file : List Char
  line : Nat
  issue : List Char
  deriving DecidableEq

/-- Python `int()` on a run of decimal digits (arbitrary precision). -/
def digitsToNat (ds : List Char) : Nat :=
  ds.foldl (fun n c => n * 10 + (c.toNat - Char.toNat '0')) 0

/-- The per-line loop of `parse_review_output` (lines 62-89): strip the line,
try the security regex first, else the comment regex, else skip the line;
emitted records carry stripped fields and the integer-parsed line number
(`int` applied to a run of digits cannot raise, so the `except ValueError`
branches are dead). -/
def parseLines : List (List Char) → List Comment × List SecurityIssue
  | [] => ([], [])
  | raw :: rest =>
    let line := strip raw
    let acc := parseLines rest
    match security_match line with
    | some (f, n, i) => (acc.1, ⟨strip f, digitsToNat (strip n), strip i⟩ :: acc.2)
    | none =>
      match comment_match line with
      | some (f, n, c) => (⟨strip f, digitsToNat (strip n), strip c⟩ :: acc.1, acc.2)
      | none => acc

/-- `ReviewProcessor.parse_review_output` (lines 54-91): strip the whole
text, split it on newlines, and run the per-line loop, collecting comments
and security issues in source line order. -/
def parse_review_output (text : List Char) : List Comment × List SecurityIssue :=
  parseLines (splitLines (strip text))

theorem splitAtColon_sound (l : List Char) :
    ∀ a b, splitAtColon l = some (a, b) →
      l = a ++ ':' :: b ∧ ∀ c ∈ a, c ≠ ':' := by
  induction l with
  | nil => intro a b h; simp [splitAtColon] at h
  | cons c cs ih =>
    intro a b h
    simp only [splitAtColon] at h
    split at h
    · rename_i hc
      simp only [Option.some.injEq, Prod.mk.injEq] at h
      obtain ⟨ha, hb⟩ := h
      subst ha
      subst hb
      subst hc
      exact ⟨rfl, by simp⟩
    · rename_i hc
      split at h
      · exact absurd h (by simp)
      · rename_i a' b' heq
        simp only [Option.some.injEq, Prod.mk.injEq] at h
        obtain ⟨ha, hb⟩ := h
        subst ha
        subst hb
        obtain ⟨hcs, hfree⟩ := ih a' b' heq
        constructor
        · rw [List.cons_append, ← hcs]
        · intro x hx
          rcases List.mem_cons.mp hx with h' | h'
          · subst h'; exact hc
          · exact hfree x h'

theorem splitAtColon_complete (a : List Char) :
    ∀ b : List Char, (∀ c ∈ a, c ≠ ':') →
      splitAtColon (a ++ ':' :: b) = some (a, b) := by
  induction a with
  | nil => intro b _; simp [splitAtColon]
  | cons c a' ih =>
    intro b hfree
    have hc : c ≠ ':' := hfree c (List.mem_cons_self c a')
    have h' : ∀ x ∈ a', x ≠ ':' := fun x hx => hfree x (List.mem_cons_of_mem _ hx)
    rw [List.cons_append, splitAtColon.eq_def]
    simp only [if_neg hc, ih b h']

theorem takeWhile_app (p : Char → Bool) (d : List Char) :
    ∀ (c : Char) (r : List Char), (∀ x ∈ d, p x = true) → p c = false →
      (d ++ c :: r).takeWhile p = d ∧ (d ++ c :: r).dropWhile p = c :: r := by
  induction d with
  | nil =>
    intro c r _ hc
    simp [List.takeWhile_cons, List.dropWhile_cons, hc]
  | cons x d' ih =>
    intro c r hall hc
    have hx : p x = true := hall x (List.mem_cons_self x d')
    have h' : ∀ y ∈ d', p y = true := fun y hy => hall y (List.mem_cons_of_mem _ hy)
    obtain ⟨h1, h2⟩ := ih c r h' hc
    simp [List.takeWhile_cons, List.dropWhile_cons, hx, h1, h2]

theorem takeWhile_of_all (p : Char → Bool) (l : List Char)
    (h : ∀ x ∈ l, p x = true) : l.takeWhile p = l :=
  List.takeWhile_eq_self_iff.mpr h

theorem dropWhile_head_false (p : Char → Bool) (l : List Char) :
    ∀ x xs, l.dropWhile p = x :: xs → p x = false := by
  induction l with
  | nil => intro x xs h; simp [List.dropWhile] at h
  | cons y ys ih =>
    intro x xs h
    rw [List.dropWhile_cons] at h
    by_cases hy : p y
    · rw [if_pos hy] at h
      exact ih x xs h
    · rw [if_neg hy] at h
      injection h with h1 h2
      subst h1
      simpa using hy

/-- Soundness of the regex match: the groups satisfy the grammar and the
line decomposes around them (`tail` is what `.+` stops before: nothing, or a
part beginning with a newline). -/
theorem matchFileLineRest_some (line f d r : List Char)
    (h : matchFileLineRest line = some (f, d, r)) :
    f ≠ [] ∧ (∀ c ∈ f, c ≠ ':') ∧ d ≠ [] ∧ (∀ c ∈ d, c.isDigit = true) ∧
      r ≠ [] ∧ ∃ tail, line = f ++ ':' :: (d ++ ':' :: (r ++ tail)) ∧
        (tail = [] ∨ '\n' ∈ tail) := by
  unfold matchFileLineRest at h
  cases heq : splitAtColon line with
  | none => rw [heq] at h; exact absurd h (by simp)
  | some fr =>
    obtain ⟨file, rest⟩ := fr
    rw [heq] at h
    simp only at h
    by_cases hfe : file = []
    · rw [if_pos hfe] at h; exact absurd h (by simp)
    · rw [if_neg hfe] at h
      cases hdw : rest.dropWhile Char.isDigit with
      | nil => rw [hdw] at h; exact absurd h (by simp)
      | cons c0 rest2 =>
        rw [hdw] at h
        simp only at h
        by_cases hc0 : c0 = ':'
        · rw [if_pos hc0] at h
          by_cases hde : rest.takeWhile Char.isDigit = []
          · rw [if_pos hde] at h; exact absurd h (by simp)
          · rw [if_neg hde] at h
            by_cases hre : rest2.takeWhile (fun c => c != '\n') = []
            · rw [if_pos hre] at h; exact absurd h (by simp)
            · rw [if_neg hre] at h
              simp only [Option.some.injEq, Prod.mk.injEq] at h
              obtain ⟨hf, hd, hr⟩ := h
              subst hf
              subst hd
              subst hr
              obtain ⟨hline, hfree⟩ := splitAtColon_sound line file rest heq
              refine ⟨hfe, hfree, hde, ?_, hre, ?_⟩
              · intro ch hch
                exact List.mem_takeWhile_imp hch
              · refine ⟨rest2.dropWhile (fun c => c != '\n'), ?_, ?_⟩
                · have h2 : rest2.takeWhile (fun c => c != '\n') ++
                      rest2.dropWhile (fun c => c != '\n') = rest2 :=
                    List.takeWhile_append_dropWhile _ _
                  have h1 : rest.takeWhile Char.isDigit ++ ':' :: rest2 = rest := by
                    conv_rhs => rw [← List.takeWhile_append_dropWhile Char.isDigit rest]
                    rw [hdw, hc0]
                  rw [hline, h2, h1]
                · cases htl : rest2.dropWhile (fun c => c != '\n') with
                  | nil => exact Or.inl rfl
                  | cons x xs =>
                    have hx := dropWhile_head_false (fun c => c != '\n') rest2 x xs htl
                    have : x = '\n' := by simpa using hx
                    subst this
                    exact Or.inr (List.mem_cons_self _ _)
        · rw [if_neg hc0] at h
          exact absurd h (by simp)

/-- For a line without newlines, the regex match succeeds with groups
`(f, d, r)` exactly when the line is `f ++ ":" ++ d ++ ":" ++ r` with `f`
non-empty and colon-free, `d` one or more digits, and `r` non-empty. -/
theorem matchFileLineRest_iff (line f d r : List Char) (hn : '\n' ∉ line) :
    matchFileLineRest line = some (f, d, r) ↔
      (line = f ++ ':' :: (d ++ ':' :: r) ∧ f ≠ [] ∧ (∀ c ∈ f, c ≠ ':') ∧
       d ≠ [] ∧ (∀ c ∈ d, c.isDigit = true) ∧ r ≠ []) := by
  constructor
  · intro h
    obtain ⟨hf, hfree, hd, hdig, hr, tail, hline, htail⟩ :=
      matchFileLineRest_some line f d r h
    have ht : tail = [] := by
      rcases htail with h' | h'
      · exact h'
      · exact absurd (by rw [hline]; simp [h'] : '\n' ∈ line) hn
    subst ht
    rw [List.append_nil] at hline
    exact ⟨hline, hf, hfree, hd, hdig, hr⟩
  · rintro ⟨hline, hf, hfree, hd, hdig, hr⟩
    subst hline
    have hnr : '\n' ∉ r := fun hmem => hn (by simp [hmem])
    have hsc := splitAtColon_complete f (d ++ ':' :: r) hfree
    obtain ⟨ht, hdw⟩ := takeWhile_app Char.isDigit d ':' r hdig (by decide)
    have hr3 : r.takeWhile (fun c => c != '\n') = r :=
      takeWhile_of_all _ r (fun x hx => by
        have hxn : x ≠ '\n' := fun e => hnr (e ▸ hx)
        simpa using hxn)
    simp [matchFileLineRest, hsc, hdw, ht, hr3, hf, hd, hr]

theorem security_match_groups (line f n i : List Char)
    (h : security_match line = some (f, n, i)) :
    n ≠ [] ∧ ∀ ch ∈ n, ch.isDigit = true := by
  rw [security_match] at h
  split at h
  · have hs := matchFileLineRest_some _ _ _ _ h
    exact ⟨hs.2.2.1, hs.2.2.2.1⟩
  · exact absurd h (by simp)

theorem comment_match_groups (line f n c : List Char)
    (h : comment_match line = some (f, n, c)) :
    n ≠ [] ∧ ∀ ch ∈ n, ch.isDigit = true := by
  have hs := matchFileLineRest_some _ _ _ _ h
  exact ⟨hs.2.2.1, hs.2.2.2.1⟩

theorem dropWhile_of_forall_false (p : Char → Bool) (l : List Char)
    (h : ∀ x ∈ l, p x = false) : l.dropWhile p = l := by
  cases l with
  | nil => rfl
  | cons x xs =>
    rw [List.dropWhile_cons, if_neg]
    simp [h x (List.mem_cons_self x xs)]

/-- `str.strip()` leaves a whitespace-free string unchanged. -/
theorem strip_of_no_space (l : List Char)
    (h : ∀ c ∈ l, isPySpace c = false) : strip l = l := by
  rw [strip, dropWhile_of_forall_false _ _ h,
    dropWhile_of_forall_false _ _ (fun c hc => h c (List.mem_reverse.mp hc)),
    List.reverse_reverse]

theorem digit_not_pyspace (c : Char) (h : c.isDigit = true) :
    isPySpace c = false := by
  by_contra hc
  rw [Bool.not_eq_false, isPySpace] at hc
  simp only [Bool.or_eq_true, decide_eq_true_eq] at hc
  rcases hc with ((((h1 | h1) | h1) | h1) | h1) | h1 <;> subst h1 <;>
    exact absurd h (by decide)

theorem parseLines_cons_sec (raw : List Char) (rest : List (List Char))
    (f n i : List Char) (hs : security_match (strip raw) = some (f, n, i)) :
    parseLines (raw :: rest) = ((parseLines rest).1,
      ⟨strip f, digitsToNat (strip n), strip i⟩ :: (parseLines rest).2) := by
  simp only [parseLines, hs]

theorem parseLines_cons_com (raw : List Char) (rest : List (List Char))
    (f n c : List Char) (hs : security_match (strip raw) = none)
    (hc : comment_match (strip raw) = some (f, n, c)) :
    parseLines (raw :: rest) =
      (⟨strip f, digitsToNat (strip n), strip c⟩ :: (parseLines rest).1,
       (parseLines rest).2) := by
  simp only [parseLines, hs, hc]

theorem parseLines_cons_skip (raw : List Char) (rest : List (List Char))
    (hs : security_match (strip raw) = none)
    (hc : comment_match (strip raw) = none) :
    parseLines (raw :: rest) = parseLines rest := by
  simp only [parseLines, hs, hc]

/-- The comment-acceptance rule as the spec words it (§4.3 rule 2), to be
compared with `comment_match`: split on the first two colons into
`file`, `num`, `remainder`; accept when `file` is non-empty after trimming
and `num` is, after trimming, a non-empty run of digits; fields are emitted
trimmed, with `num` parsed as an integer. -/
def specCommentLine (line : List Char) : Option Comment :=
  match splitAtColon line with
  | none => none
  | some (file, rest) =>
    match splitAtColon rest with
    | none => none
    | some (num, remainder) =>
      if strip file ≠ [] ∧ strip num ≠ [] ∧ (strip num).all Char.isDigit then
        some ⟨strip file, digitsToNat (strip num), strip remainder⟩
      else none

/-- C3 (amended): for a non-security line the parser emits a Comment iff the
line matches `<file>:<digits>:<rest>` where `<file>` is non-empty and
colon-free, the digits immediately follow the first colon with no
surrounding whitespace, and `<rest>` is non-empty; the Comment carries the
trimmed file, the parsed number and the trimmed rest.  (The spec's
"trimmed digits" reading is refuted by the counterexample: the regex `\d+`
admits no whitespace around the digits, and `.+` requires a non-empty
remainder.) -/
theorem comment_line_grammar (line f d r : List Char) (hn : '\n' ∉ line) :
    (comment_match line = some (f, d, r) ↔
      (line = f ++ ':' :: (d ++ ':' :: r) ∧ f ≠ [] ∧ (∀ c ∈ f, c ≠ ':') ∧
       d ≠ [] ∧ (∀ c ∈ d, c.isDigit = true) ∧ r ≠ [])) ∧
    (security_match (strip line) = none →
      comment_match (strip line) = some (f, d, r) →
      parseLines [line] = ([⟨strip f, digitsToNat (strip d), strip r⟩], [])) ∧
    (security_match (strip line) = none → comment_match (strip line) = none →
      parseLines [line] = ([], [])) := by
  refine ⟨matchFileLineRest_iff line f d r hn, ?_, ?_⟩
  · intro hs hc
    rw [parseLines_cons_com line [] f d r hs hc]
    rfl
  · intro hs hc
    rw [parseLines_cons_skip line [] hs hc]
    rfl

/-- C3 witness: the grammar characterisation and the parser's emission,
instantiated on the line `x.py:1:bad`. -/
theorem comment_line_grammar_witness :
    ('\n' ∉ "x.py:1:bad".data) ∧
    ((comment_match "x.py:1:bad".data =
        some ("x.py".data, "1".data, "bad".data) ↔
      ("x.py:1:bad".data = "x.py".data ++ ':' ::
          ("1".data ++ ':' :: "bad".data) ∧
       "x.py".data ≠ [] ∧ (∀ c ∈ "x.py".data, c ≠ ':') ∧
       "1".data ≠ [] ∧ (∀ c ∈ "1".data, c.isDigit = true) ∧
       "bad".data ≠ [])) ∧
    (security_match (strip "x.py:1:bad".data) = none →
      comment_match (strip "x.py:1:bad".data) =
        some ("x.py".data, "1".data, "bad".data) →
      parseLines ["x.py:1:bad".data] =
        ([⟨strip "x.py".data, digitsToNat (strip "1".data),
           strip "bad".data⟩], [])) ∧
    (security_match (strip "x.py:1:bad".data) = none →
      comment_match (strip "x.py:1:bad".data) = none →
      parseLines ["x.py:1:bad".data] = ([], []))) :=
  ⟨by decide, comment_line_grammar "x.py:1:bad".data "x.py".data "1".data
    "bad".data (by decide)⟩

/-- C3 counterexample: on the line `a: 1:b` the part between the first two
colons trims to the digit run `1`, so the claim's grammar accepts it, yet
the regex requires the digits to follow the colon immediately and the parser
emits nothing. -/
theorem comment_grammar_cex :
    security_match (strip "a: 1:b".data) = none ∧
    (specCommentLine (strip "a: 1:b".data)).isSome = true ∧
    (parse_review_output "a: 1:b".data).1 = [] ∧
    (parse_review_output "a: 1:b".data).2 = [] := by decide

/-- Every record `parseLines` emits comes from a line of the input that one
of the two regexes accepted (the security regex first, else the comment
regex), and its line field is the integer value of the digit run that match
captured on that line. -/
theorem parseLines_line_provenance (ls : List (List Char)) :
    (∀ c ∈ (parseLines ls).1, ∃ raw ∈ ls, ∃ f ds r,
       security_match (strip raw) = none ∧
       comment_match (strip raw) = some (f, ds, r) ∧
       ds ≠ [] ∧ (∀ ch ∈ ds, ch.isDigit = true) ∧
       c.line = digitsToNat ds) ∧
    (∀ s ∈ (parseLines ls).2, ∃ raw ∈ ls, ∃ f ds r,
       security_match (strip raw) = some (f, ds, r) ∧
       ds ≠ [] ∧ (∀ ch ∈ ds, ch.isDigit = true) ∧
       s.line = digitsToNat ds) := by
  induction ls with
  | nil => exact ⟨fun x hx => absurd hx (by simp [parseLines]),
      fun x hx => absurd hx (by simp [parseLines])⟩
  | cons raw rest ih =>
    obtain ⟨ih1, ih2⟩ := ih
    cases hs : security_match (strip raw) with
    | some v =>
      obtain ⟨f, n, i⟩ := v
      obtain ⟨hne, hdig⟩ := security_match_groups (strip raw) f n i hs
      have hsn : strip n = n :=
        strip_of_no_space n (fun ch hch => digit_not_pyspace ch (hdig ch hch))
      rw [parseLines_cons_sec raw rest f n i hs]
      constructor
      · intro c hc
        obtain ⟨raw', hmem, f', ds, r', hsec', hcom', hne', hdig', hline⟩ := ih1 c hc
        exact ⟨raw', List.mem_cons_of_mem _ hmem, f', ds, r',
          hsec', hcom', hne', hdig', hline⟩
      · intro s hsm
        rcases List.mem_cons.mp hsm with h | h
        · subst h
          exact ⟨raw, List.mem_cons_self _ _, f, n, i, hs, hne, hdig, by rw [hsn]⟩
        · obtain ⟨raw', hmem, f', ds, r', hsec', hne', hdig', hline⟩ := ih2 s h
          exact ⟨raw', List.mem_cons_of_mem _ hmem, f', ds, r',
            hsec', hne', hdig', hline⟩
    | none =>
      cases hc : comment_match (strip raw) with
      | some v =>
        obtain ⟨f, n, c⟩ := v
        obtain ⟨hne, hdig⟩ := comment_match_groups (strip raw) f n c hc
        have hsn : strip n = n :=
          strip_of_no_space n (fun ch hch => digit_not_pyspace ch (hdig ch hch))
        rw [parseLines_cons_com raw rest f n c hs hc]
        constructor
        · intro c0 hc0
          rcases List.mem_cons.mp hc0 with h | h
          · subst h
            exact ⟨raw, List.mem_cons_self _ _, f, n, c, hs, hc, hne, hdig,
              by rw [hsn]⟩
          · obtain ⟨raw', hmem, f', ds, r', hsec', hcom', hne', hdig', hline⟩ :=
              ih1 c0 h
            exact ⟨raw', List.mem_cons_of_mem _ hmem, f', ds, r',
              hsec', hcom', hne', hdig', hline⟩
        · intro s hsm
          obtain ⟨raw', hmem, f', ds, r', hsec', hne', hdig', hline⟩ := ih2 s hsm
          exact ⟨raw', List.mem_cons_of_mem _ hmem, f', ds, r',
            hsec', hne', hdig', hline⟩
      | none =>
        rw [parseLines_cons_skip raw rest hs hc]
        constructor
        · intro c0 hc0
          obtain ⟨raw', hmem, f', ds, r', hsec', hcom', hne', hdig', hline⟩ :=
            ih1 c0 hc0
          exact ⟨raw', List.mem_cons_of_mem _ hmem, f', ds, r',
            hsec', hcom', hne', hdig', hline⟩
        · intro s hsm
          obtain ⟨raw', hmem, f', ds, r', hsec', hne', hdig', hline⟩ := ih2 s hsm
          exact ⟨raw', List.mem_cons_of_mem _ hmem, f', ds, r',
            hsec', hne', hdig', hline⟩

/-- C6 (amended): every Comment and SecurityIssue the parser emits is
produced from an input line accepted by the corresponding regex (the
security regex first, else the comment regex), and its line field equals the
integer value of the non-empty digit run that regex captured between the
first two colons of that line; the value is a natural number and can be zero
(for the digit run `0`), so it is not always positive. -/
theorem parse_line_field (text : List Char) :
    (∀ c ∈ (parse_review_output text).1,
       ∃ raw ∈ splitLines (strip text), ∃ f ds r,
         security_match (strip raw) = none ∧
         comment_match (strip raw) = some (f, ds, r) ∧
         ds ≠ [] ∧ (∀ ch ∈ ds, ch.isDigit = true) ∧
         c.line = digitsToNat ds) ∧
    (∀ s ∈ (parse_review_output text).2,
       ∃ raw ∈ splitLines (strip text), ∃ f ds r,
         security_match (strip raw) = some (f, ds, r) ∧
         ds ≠ [] ∧ (∀ ch ∈ ds, ch.isDigit = true) ∧
         s.line = digitsToNat ds) :=
  parseLines_line_provenance (splitLines (strip text))

/-- C6 counterexample: on the input `f:0:c` the parser emits a Comment whose
line field is 0, which is not a positive integer. -/
theorem parse_line_zero_cex :
    ¬ (∀ c ∈ (parse_review_output "f:0:c".data).1, 0 < c.line) := by decide

/-- A line that fails both regexes changes nothing, wherever it sits in the
line list. -/
theorem parseLines_middle_skip (pre : List (List Char)) (bad : List Char)
    (post : List (List Char)) (h1 : security_match (strip bad) = none)
    (h2 : comment_match (strip bad) = none) :
    parseLines (pre ++ bad :: post) = parseLines (pre ++ post) := by
  induction pre with
  | nil => exact parseLines_cons_skip bad post h1 h2
  | cons x pre' ih =>
    rw [List.cons_append, List.cons_append]
    cases hs : security_match (strip x) with
    | some v =>
      obtain ⟨f, n, i⟩ := v
      rw [parseLines_cons_sec x _ f n i hs, parseLines_cons_sec x _ f n i hs, ih]
    | none =>
      cases hc : comment_match (strip x) with
      | some v =>
        obtain ⟨f, n, c⟩ := v
        rw [parseLines_cons_com x _ f n c hs hc,
          parseLines_cons_com x _ f n c hs hc, ih]
      | none =>
        rw [parseLines_cons_skip x _ hs hc, parseLines_cons_skip x _ hs hc, ih]

/-- C8: the parser is a total function by construction (the embedded `int`
is applied only to digit runs, so the guarded `ValueError` cannot occur),
and a line matching neither grammar is skipped: the parse of the whole text
equals the parse with that line removed. -/
theorem parse_skip_line (t : List Char) (pre : List (List Char))
    (bad : List Char) (post : List (List Char))
    (h0 : splitLines (strip t) = pre ++ bad :: post)
    (h1 : security_match (strip bad) = none)
    (h2 : comment_match (strip bad) = none) :
    parse_review_output t = parseLines (pre ++ post) := by
  rw [parse_review_output, h0, parseLines_middle_skip pre bad post h1 h2]

/-- C8 witness: a garbage line `??` between two well-formed comment lines is
dropped and the other lines parse as if it were absent. -/
theorem parse_skip_line_witness :
    (splitLines (strip "a:1:b\n??\nc:2:d".data) =
      ["a:1:b".data] ++ "??".data :: ["c:2:d".data]) ∧
    security_match (strip "??".data) = none ∧
    comment_match (strip "??".data) = none ∧
    parse_review_output "a:1:b\n??\nc:2:d".data =
      parseLines (["a:1:b".data] ++ ["c:2:d".data]) :=
  ⟨by decide, by decide, by decide,
    parse_skip_line "a:1:b\n??\nc:2:d".data ["a:1:b".data] "??".data
      ["c:2:d".data] (by decide) (by decide) (by decide)⟩

/-- One element of the JSON-array response body: a JSON object with an
optional `generated_text` field and some number of other keys (`otherKeys`
feeds Python truthiness: a dict is truthy iff it is non-empty). -/
structure Candidate where
  generated_text : Option (List Char)
  otherKeys : Nat
  deriving DecidableEq

/-- The parsed body of a model response: a JSON array of candidates, or any
non-list JSON value (carrying only its Python truthiness, which the guard
never gets past). -/
inductive ModelResponse where
  | arr : List Candidate → ModelResponse
  | nonList : Bool → ModelResponse
  deriving DecidableEq

/-- Python truthiness of a candidate object (a dict is truthy iff non-empty). -/
def Candidate.truthy (c : Candidate) : Bool :=
  c.generated_text.isSome || decide (0 < c.otherKeys)

/-- The guard at lines 120-121, 157-158, 198 and 237 of the source:
`response and isinstance(response, list) and response[0] and
"generated_text" in response[0]`, followed by reading
`response[0]["generated_text"]`.  Only the first array element is ever
inspected. -/
def extractGenerated : ModelResponse → Option (List Char)
  | ModelResponse.arr (c :: _) =>
    if c.truthy && c.generated_text.isSome then c.generated_text else none
  | _ => none

/-- The sentinel summary string (lines 156 and 236). -/
def NO_SUMMARY : List Char := "No summary generated.".data

/-- Lines 236-241 (and 156-161): the returned summary is the stripped
generated text when the summary response passes the guard, else the
sentinel; either way no error is raised. -/
def summaryFrom (r : ModelResponse) : List Char :=
  match extractGenerated r with
  | some t => strip t
  | none => NO_SUMMARY

/-- The per-chunk loop of `process_review` (lines 181-206): for the i-th
chunk one remote call is made and `oracle i` is its response (the payload
the code builds — by `format_messages()[0].content`, the system prompt
alone — does not vary with the response schedule, which the claims under
study fix); a response passing the guard contributes its parsed records to
the aggregates, any other response contributes nothing and the loop
continues. -/
def reviewChunks (oracle : Nat → ModelResponse) :
    Nat → List (List Char) → List Comment × List SecurityIssue
  | _, [] => ([], [])
  | i, _chunk :: rest =>
    let step :=
      match extractGenerated (oracle i) with
      | some txt => parse_review_output txt
      | none => ([], [])
    let acc := reviewChunks oracle (i + 1) rest
    (step.1 ++ acc.1, step.2 ++ acc.2)

/-- The returned triple `(all_comments, summary, all_security_issues)`. -/
structure ReviewResult where
  comments : List Comment
  summary : List Char
  security_issues : List SecurityIssue
  deriving DecidableEq

/-- `ReviewProcessor.process_review` (lines 166-243): split the diff into
chunks, run the per-chunk review loop, then make one summary call (`sr` is
its response) and return the aggregates with the summary. -/
def process_review (diff : List Char) (oracle : Nat → ModelResponse)
    (sr : ModelResponse) : ReviewResult :=
  let chunks := split_diff diff
  let agg := reviewChunks oracle 0 chunks
  ⟨agg.1, summaryFrom sr, agg.2⟩

/-- `ReviewProcessor.process_review_no_chunk` (lines 93-163): a single
review call over the whole diff (whose text, like the chunk text in the
chunked variant, is dropped from the payload by `format_messages()[0]`),
then the same summary handling. -/
def process_review_no_chunk (_diff : List Char)
    (oracle : Nat → ModelResponse) (sr : ModelResponse) : ReviewResult :=
  let agg :=
    match extractGenerated (oracle 0) with
    | some txt => parse_review_output txt
    | none => ([], [])
  ⟨agg.1, summaryFrom sr, agg.2⟩

/-- A generated text that parses to exactly one comment. -/
def cexText5 : List Char := "x.py:1:bad".data

/-- A response array whose first candidate is an empty object and whose
second candidate carries a generated-text field. -/
def cexCands5 : List Candidate := [⟨none, 1⟩, ⟨some cexText5, 0⟩]

/-- A summary text distinct from the sentinel. -/
def sumText9 : List Char := "Adds an import.".data

/-- A summary response whose first candidate is an empty object and whose
second candidate carries a generated-text field. -/
def cexCands9 : List Candidate := [⟨none, 1⟩, ⟨some sumText9, 0⟩]

/-- A response schedule that always returns the empty array. -/
def oracleEmpty : Nat → ModelResponse := fun _ => ModelResponse.arr []

/-- C5 (amended): a per-chunk response whose FIRST candidate carries a
generated-text field contributes that text's parsed records and processing
continues; a response failing the guard (an empty array, a non-list value,
or a first candidate without the field — even if a later candidate has one)
contributes nothing and processing continues. -/
theorem review_chunk_contribution (oracle : Nat → ModelResponse) (i : Nat)
    (chunk : List Char) (rest : List (List Char)) :
    (∀ c cs txt, oracle i = ModelResponse.arr (c :: cs) →
       c.generated_text = some txt →
       reviewChunks oracle i (chunk :: rest) =
         ((parse_review_output txt).1 ++ (reviewChunks oracle (i + 1) rest).1,
          (parse_review_output txt).2 ++ (reviewChunks oracle (i + 1) rest).2)) ∧
    (extractGenerated (oracle i) = none →
       reviewChunks oracle i (chunk :: rest) = reviewChunks oracle (i + 1) rest) ∧
    (oracle i = ModelResponse.arr [] → extractGenerated (oracle i) = none) := by
  refine ⟨?_, ?_, ?_⟩
  · intro c cs txt ho hg
    simp [reviewChunks, ho, extractGenerated, Candidate.truthy, hg]
  · intro h
    simp [reviewChunks, h]
  · intro h
    rw [h]
    rfl

/-- C5 counterexample: a response `[{}, {"generated_text": "x.py:1:bad"}]`
contains a candidate with a generated-text field whose text parses to one
comment, yet the chunk contributes nothing because only the first element is
inspected. -/
theorem review_candidate_cex :
    (∃ c ∈ cexCands5, c.generated_text.isSome = true) ∧
    (process_review "d".data (fun _ => ModelResponse.arr cexCands5)
        (ModelResponse.arr [])).comments = [] ∧
    (parse_review_output cexText5).1 ≠ [] := by decide

/-- C9 (amended): the returned summary is the trimmed generated text when
the summary response's FIRST candidate carries a generated-text field, and
the sentinel `No summary generated.` whenever the guard fails (empty array,
non-list value, or first candidate without the field); either way
`process_review` completes. -/
theorem process_review_summary (diff : List Char)
    (oracle : Nat → ModelResponse) (sr : ModelResponse) :
    (∀ c cs txt, sr = ModelResponse.arr (c :: cs) →
       c.generated_text = some txt →
       (process_review diff oracle sr).summary = strip txt) ∧
    (extractGenerated sr = none →
       (process_review diff oracle sr).summary = NO_SUMMARY) := by
  constructor
  · intro c cs txt hsr hg
    simp [process_review, summaryFrom, hsr, extractGenerated,
      Candidate.truthy, hg]
  · intro h
    simp [process_review, summaryFrom, h]

/-- C9 counterexample: the summary response `[{}, {"generated_text": "Adds
an import."}]` contains a generated-text candidate, yet the summary is the
sentinel, not the trimmed text, because only the first element is
inspected. -/
theorem summary_candidate_cex :
    (∃ c ∈ cexCands9, c.generated_text.isSome = true) ∧
    (process_review "e".data (fun _ => ModelResponse.arr [])
        (ModelResponse.arr cexCands9)).summary = NO_SUMMARY ∧
    strip sumText9 ≠ NO_SUMMARY := by decide

/-- C10: for a diff within the length threshold (so that `split_diff`
returns the single chunk equal to the diff) and identical remote responses,
the chunked orchestrator and the unchunked variant return identical
results. -/
theorem process_review_refines (diff : List Char)
    (oracle : Nat → ModelResponse) (sr : ModelResponse)
    (h : diff.length ≤ MAX_DIFF_LENGTH) :
    process_review diff oracle sr = process_review_no_chunk diff oracle sr := by
  rw [process_review, process_review_no_chunk, split_diff_eq_single diff h]
  cases hg : extractGenerated (oracle 0) with
  | none => simp [reviewChunks, hg]
  | some txt => simp [reviewChunks, hg]

/-- C10 witness: both orchestrators on the one-character diff `a` with the
same (empty-array) responses. -/
theorem process_review_refines_witness :
    ("a".data.length ≤ MAX_DIFF_LENGTH) ∧
    process_review "a".data oracleEmpty (ModelResponse.arr []) =
      process_review_no_chunk "a".data oracleEmpty (ModelResponse.arr []) :=
  ⟨by decide, process_review_refines "a".data oracleEmpty
    (ModelResponse.arr []) (by decide)⟩

/-- The errors a `requests.post` call surfaces: transport-level failures
(the `requests` connection/timeout exceptions) and the HTTP-status error
raised by `response.raise_for_status()`.  The payload tags distinguish
individual errors so that "re-raised unmodified" is observable. -/
inductive ReqError where
  | transport : Nat → ReqError
  | httpStatus : Nat → ReqError
  deriving DecidableEq

/-- An HTTP response: numeric status code and parsed JSON body. -/
structure HttpResponse where
  status : Nat
  body : ModelResponse
  deriving DecidableEq

/-- `response.raise_for_status()`: raises an HTTP-status error for 4xx and
5xx status codes, does nothing otherwise. -/
def raise_for_status (r : HttpResponse) : Except ReqError Unit :=
  if 400 ≤ r.status then Except.error (ReqError.httpStatus r.status)
  else Except.ok ()

/-- `ReviewProcessor.query_huggingface` (lines 42-52) over a transport
schedule: `post n` is the outcome of the n-th `requests.post` the transport
would deliver.  The source performs exactly one post — it has no retry loop,
retry decorator or sleep — then `raise_for_status`, then returns the parsed
body.  The second component counts the posts performed. -/
def query_huggingface (post : Nat → Except ReqError HttpResponse) :
    Except ReqError ModelResponse × Nat :=
  (match post 0 with
   | Except.error e => Except.error e
   | Except.ok r =>
     match raise_for_status r with
     | Except.error e => Except.error e
     | Except.ok _ => Except.ok r.body, 1)

/-- A transport schedule that fails twice and then succeeds: a 3-attempt
retry policy would succeed on its third call. -/
def flaky (n : Nat) : Except ReqError HttpResponse :=
  if n < 2 then Except.error (ReqError.transport 0)
  else Except.ok ⟨200, ModelResponse.arr []⟩

/-- A transport schedule that always fails with the same transport error. -/
def alwaysFail (_ : Nat) : Except ReqError HttpResponse :=
  Except.error (ReqError.transport 7)

/-- C2 (amended): a remote invocation makes exactly one attempt — there is
no retry and no inter-attempt delay.  A transport failure on that single
attempt is re-raised to the caller unmodified, and the collaborator has been
called exactly once. -/
theorem query_huggingface_single_attempt
    (post : Nat → Except ReqError HttpResponse) (e : ReqError)
    (h : post 0 = Except.error e) :
    (query_huggingface post).1 = Except.error e ∧
    (query_huggingface post).2 = 1 := by
  simp [query_huggingface, h]

/-- C2 witness: the single-attempt behaviour on the always-failing
transport. -/
theorem query_huggingface_single_attempt_witness :
    (alwaysFail 0 = Except.error (ReqError.transport 7)) ∧
    ((query_huggingface alwaysFail).1 = Except.error (ReqError.transport 7) ∧
     (query_huggingface alwaysFail).2 = 1) :=
  ⟨rfl, query_huggingface_single_attempt alwaysFail
    (ReqError.transport 7) rfl⟩

/-- C2 counterexample: with a collaborator that fails transport-wise twice
and then succeeds (so a 3-attempt retry policy would succeed after exactly
3 calls), the invocation instead re-raises the first transport error and
the collaborator is called once, not 3 times. -/
theorem query_huggingface_retry_cex :
    (query_huggingface flaky).1 = Except.error (ReqError.transport 0) ∧
    (query_huggingface flaky).2 = 1 ∧
    (query_huggingface flaky).2 ≠ 3 := by
  refine ⟨rfl, rfl, by decide⟩

end ReviewBot
